import Mathlib

/-!
Verification of the natural-language specification of
`graph_neural_network/utils.py` (function `network_viz`) against a shallow
embedding of its code.

Modelling conventions:
* Node identifiers are `Nat`; the input graph is the edge list obtained from
  `data.edge_index` (a list of pairs).
* `networkx.Graph` semantics: duplicate edges collapse, edges are undirected,
  a self-loop adds 2 to the degree. Node iteration order may differ from
  networkx's insertion order; every property proved here is insensitive to it.
* Python's global pseudo-random generator is modelled by explicit parameters:
  `random.choice` over the moderate-degree candidates becomes an arbitrary
  index `i` (reduced mod the list length), and each `random.shuffle` inside
  the breadth-first loop becomes one application of a permutation oracle
  `perm : Nat → List Nat → List Nat` at the current step counter.
* Python exceptions (`random.choice` on an empty list, `np.percentile` on an
  empty array) are modelled with `Option`: `none` means the call raises.
* numpy floating-point arithmetic (`np.percentile`, `np.mean`) is modelled
  exactly over `ℚ`; `np.mean` of an empty list yields NaN with a warning but
  does not raise, modelled as `none` inside a normally completed result.
* `nx.spring_layout` is library code outside this repository; it is modelled
  as an explicit function parameter `layoutFn`, applied — as the source does —
  to the sampled subgraph with the fixed seed 42.
-/

/-- Undirected adjacency of the graph built by `G_full.add_edges_from(edge_list)`:
`u` and `v` are adjacent iff some listed edge is `(u, v)` or `(v, u)`. -/
def adjB (es : List (Nat × Nat)) (u v : Nat) : Bool :=
  es.any (fun e => (e.1 == u && e.2 == v) || (e.1 == v && e.2 == u))

/-- The node list of `G_full`: every endpoint of a listed edge, each node
once. (`dedup` keeps the last occurrence, networkx the first; the node
iteration order is immaterial to every property proved in this file, all of
which are insensitive to it.) -/
def nodesOf (es : List (Nat × Nat)) : List Nat :=
  (es.flatMap (fun e => [e.1, e.2])).dedup

/-- `list(G_full.neighbors(u))`: the nodes adjacent to `u`. -/
def nxNeighbors (es : List (Nat × Nat)) (u : Nat) : List Nat :=
  (nodesOf es).filter (fun v => adjB es u v)

/-- `G.degree(u)` in networkx: the number of neighbors, a self-loop counting
twice. -/
def nxDegree (es : List (Nat × Nat)) (u : Nat) : Nat :=
  (nxNeighbors es u).length + (if adjB es u u then 1 else 0)

/-- `moderate_nodes = [node for node, deg in degrees.items() if 20 <= deg <= 100]`. -/
def moderateNodes (es : List (Nat × Nat)) : List Nat :=
  (nodesOf es).filter (fun n => decide (20 ≤ nxDegree es n ∧ nxDegree es n ≤ 100))

/-- `start_node = random.choice(moderate_nodes)`: the random draw is modelled
by an arbitrary index `i` reduced mod the candidate count; on an empty
candidate list (`i % 0 = i`, out of range) the result is `none`, modelling the
`IndexError` that `random.choice` raises. -/
def chooseStart (es : List (Nat × Nat)) (i : Nat) : Option Nat :=
  (moderateNodes es).get? (i % (moderateNodes es).length)

/-- The inner `for neighbor in neighbors:` loop of the expansion: add each
still-unvisited neighbor to both the visited set and the queue while the
sample bound has not been reached. -/
def addNeighbors (numNodes : Nat) : List Nat → List Nat → List Nat → List Nat × List Nat
  | [], visited, queue => (visited, queue)
  | n :: rest, visited, queue =>
    if n ∉ visited ∧ visited.length < numNodes then
      addNeighbors numNodes rest (visited ++ [n]) (queue ++ [n])
    else
      addNeighbors numNodes rest visited queue

/-- The `while queue and len(visited) < num_nodes:` loop. `perm step`
models the `random.shuffle(neighbors)` performed at iteration `step`. The
structural `fuel` argument dominates the loop measure
`queue.length + 2 * (numNodes - visited.length)`, which strictly decreases at
every iteration (this is the fuel bookkeeping inside `bfsLoop_post` below), so
with the fuel supplied by `bfsFrom` the loop always exits through its own
condition. -/
def bfsLoop (es : List (Nat × Nat)) (numNodes : Nat)
    (perm : Nat → List Nat → List Nat) :
    Nat → Nat → List Nat → List Nat → List Nat
  | 0, _, visited, _ => visited
  | _ + 1, _, visited, [] => visited
  | fuel + 1, step, visited, current :: rest =>
    if visited.length < numNodes then
      let vq := addNeighbors numNodes (perm step (nxNeighbors es current)) visited rest
      bfsLoop es numNodes perm fuel (step + 1) vq.1 vq.2
    else visited

/-- The bounded breadth-first expansion: `visited = {start_node}`,
`queue = [start_node]`, then the while loop. -/
def bfsFrom (es : List (Nat × Nat)) (numNodes : Nat)
    (perm : Nat → List Nat → List Nat) (startNode : Nat) : List Nat :=
  bfsLoop es numNodes perm (2 * numNodes + 2) 0 [startNode] [startNode]

/-- A permutation oracle is admissible when each of its answers is a
rearrangement of the list it was shown (`random.shuffle` semantics). -/
def permOK (perm : Nat → List Nat → List Nat) : Prop :=
  ∀ k l, List.Perm (perm k l) l

/-- The identity oracle (shuffles that leave the order unchanged). -/
def permId : Nat → List Nat → List Nat := fun _ l => l

/-- `G_full.subgraph(visited)` edge set: the input edges with both endpoints
in the sample. -/
def inducedEdges (es : List (Nat × Nat)) (s : List Nat) : List (Nat × Nat) :=
  es.filter (fun e => decide (e.1 ∈ s) && decide (e.2 ∈ s))

/-- `G_full.subgraph(visited)` node list: the full graph's nodes restricted to
the sample, in full-graph order. -/
def subNodesOf (es : List (Nat × Nat)) (s : List Nat) : List Nat :=
  (nodesOf es).filter (fun v => decide (v ∈ s))

/-- `list(dict(G_sub.degree()).values())`: per-node degree recomputed inside
the sampled subgraph, in subgraph node order. -/
def subDegreeList (es : List (Nat × Nat)) (s : List Nat) : List Nat :=
  (subNodesOf es s).map (fun n => nxDegree (inducedEdges es s) n)

/-- Degrees of the sample's nodes taken from the FULL graph instead; used only
to contrast with `subDegreeList` (the code recomputes inside the subgraph). -/
def fullDegreeList (es : List (Nat × Nat)) (s : List Nat) : List Nat :=
  (subNodesOf es s).map (fun n => nxDegree es n)

/-- `np.percentile(values, 70)` with the default linear interpolation, exactly
over `ℚ`: on the ascending sort `s` of the data, with `p = 0.7 * (n - 1)`,
`i = ⌊p⌋` and `γ = p - i`, the result is `s[i] + γ * (s[i+1] - s[i])`.
The value is only used on non-empty data (see `npPercentile70`). -/
def np70 (l : List Nat) : ℚ :=
  let s := List.insertionSort (· ≤ ·) l
  let p : ℚ := 7 * ((s.length : ℚ) - 1) / 10
  let i : Nat := ⌊p⌋₊
  let d0 : ℚ := (s.getD i 0 : Nat)
  let d1 : ℚ := (s.getD (i + 1) (s.getD i 0) : Nat)
  d0 + (p - (i : ℚ)) * (d1 - d0)

/-- `np.percentile` raises on an empty array (`none`); otherwise `np70`. -/
def npPercentile70 (l : List Nat) : Option ℚ :=
  if l = [] then none else some (np70 l)

/-- `np.mean` over a list of degrees, exactly over `ℚ`; the empty list gives
NaN (with a RuntimeWarning, no exception), modelled `none`. -/
def npMean (l : List Nat) : Option ℚ :=
  if l = [] then none
  else some ((l.foldr (fun a b => (a : ℚ) + b) 0) / (l.length : ℚ))

/-- Everything `network_viz` computes about one run: the Sample Set, the
sampled subgraph, the classification, the layout and the printed statistics,
plus the returned subgraph (its `subNodes`/`subEdges` fields). -/
structure VizResult where
  sample : List Nat
  subNodes : List Nat
  subEdges : List (Nat × Nat)
  threshold : ℚ
  popular : List Nat
  regular : List Nat
  layout : List (Nat × ℚ × ℚ)
  popularMean : Option ℚ
  regularMean : Option ℚ
  maxDegree : Nat
  deriving DecidableEq, Repr

/-- Shallow embedding of `network_viz(data, num_nodes)`. `layoutFn` stands for
`nx.spring_layout` (library code, received as a parameter and applied to the
subgraph with the source's fixed seed 42); `perm`/`i` model the global
pseudo-random generator. `none` models an uncaught exception. -/
def networkViz (layoutFn : List (Nat × Nat) → List Nat → Nat → List (Nat × ℚ × ℚ))
    (es : List (Nat × Nat)) (numNodes : Nat)
    (perm : Nat → List Nat → List Nat) (i : Nat) : Option VizResult :=
  match chooseStart es i with
  | none => none
  | some startNode =>
    let visited := bfsFrom es numNodes perm startNode
    let subN := subNodesOf es visited
    let subE := inducedEdges es visited
    let degs := subDegreeList es visited
    match npPercentile70 degs with
    | none => none
    | some thr =>
      let popular := subN.filter (fun n => decide (thr ≤ (nxDegree subE n : ℚ)))
      let regular := subN.filter (fun n => decide ((nxDegree subE n : ℚ) < thr))
      some { sample := visited
             subNodes := subN
             subEdges := subE
             threshold := thr
             popular := popular
             regular := regular
             layout := layoutFn subE subN 42
             popularMean := npMean (popular.map (fun n => nxDegree subE n))
             regularMean := npMean (regular.map (fun n => nxDegree subE n))
             maxDegree := degs.foldr max 0 }

/-- Reachability in the graph with edge list `es`. -/
def Reach (es : List (Nat × Nat)) (u v : Nat) : Prop :=
  Relation.ReflTransGen (fun a b => adjB es a b = true) u v

/-- One saturation step towards the connected component: append every node
adjacent to the current set that is not yet in it. -/
def expandOnce (es : List (Nat × Nat)) (s : List Nat) : List Nat :=
  s ++ ((s.flatMap (nxNeighbors es)).dedup.filter (fun v => decide (v ∉ s)))

/-- The connected component of `seed`, computed by saturating adjacency;
`(nodesOf es).length + 1` rounds are enough to reach the fixed point. -/
def componentList (es : List (Nat × Nat)) (seed : Nat) : List Nat :=
  (expandOnce es)^[(nodesOf es).length + 1] [seed]

/-! ### Basic facts about the embedded graph operations -/

theorem adjB_symm (es : List (Nat × Nat)) (u v : Nat) : adjB es u v = adjB es v u := by
  unfold adjB
  induction es with
  | nil => rfl
  | cons e t ih =>
    simp only [List.any_cons, ih]
    cases h1 : (e.1 == u && e.2 == v) <;> cases h2 : (e.1 == v && e.2 == u) <;>
      simp [h1, h2, Bool.or_comm]

theorem adjB_mem_nodesOf {es : List (Nat × Nat)} {u v : Nat}
    (h : adjB es u v = true) : u ∈ nodesOf es ∧ v ∈ nodesOf es := by
  unfold adjB at h
  rw [List.any_eq_true] at h
  obtain ⟨e, he, hp⟩ := h
  have hu : e.1 ∈ nodesOf es ∧ e.2 ∈ nodesOf es := by
    constructor <;>
    · unfold nodesOf
      rw [List.mem_dedup, List.mem_flatMap]
      exact ⟨e, he, by simp⟩
  rcases Bool.or_eq_true_iff.mp hp with h' | h' <;>
    rcases Bool.and_eq_true_iff.mp h' with ⟨ha, hb⟩ <;>
    rw [Nat.beq_eq_true_eq] at ha hb <;> subst ha <;> subst hb
  · exact hu
  · exact ⟨hu.2, hu.1⟩

theorem mem_nxNeighbors {es : List (Nat × Nat)} {u v : Nat} :
    v ∈ nxNeighbors es u ↔ adjB es u v = true := by
  unfold nxNeighbors
  rw [List.mem_filter]
  constructor
  · exact fun h => h.2
  · exact fun h => ⟨(adjB_mem_nodesOf h).2, h⟩

/-! ### The inner neighbor-adding loop -/

theorem addNeighbors_shape (N : Nat) :
    ∀ (nbrs visited queue : List Nat), ∃ news : List Nat,
      addNeighbors N nbrs visited queue = (visited ++ news, queue ++ news) ∧
      (∀ x ∈ news, x ∈ nbrs) ∧ (∀ x ∈ news, x ∉ visited) ∧ news.Nodup := by
  intro nbrs
  induction nbrs with
  | nil => intro visited queue; exact ⟨[], by simp [addNeighbors]⟩
  | cons n rest ih =>
    intro visited queue
    by_cases hc : n ∉ visited ∧ visited.length < N
    · obtain ⟨news, heq, hsub, hfresh, hnd⟩ := ih (visited ++ [n]) (queue ++ [n])
      refine ⟨n :: news, ?_, ?_, ?_, ?_⟩
      · rw [addNeighbors, if_pos hc, heq]
        simp
      · intro x hx
        rcases List.mem_cons.mp hx with h | h
        · simp [h]
        · exact List.mem_cons_of_mem _ (hsub x h)
      · intro x hx
        rcases List.mem_cons.mp hx with h | h
        · exact h ▸ hc.1
        · intro hxv
          exact hfresh x h (List.mem_append_left _ hxv)
      · refine List.nodup_cons.mpr ⟨?_, hnd⟩
        intro hn
        exact hfresh n hn (List.mem_append_right _ (by simp))
    · obtain ⟨news, heq, hsub, hfresh, hnd⟩ := ih visited queue
      refine ⟨news, ?_, ?_, hfresh, hnd⟩
      · rw [addNeighbors, if_neg hc, heq]
      · exact fun x hx => List.mem_cons_of_mem _ (hsub x hx)

theorem addNeighbors_len (N : Nat) :
    ∀ (nbrs visited queue : List Nat), visited.length ≤ N →
      (addNeighbors N nbrs visited queue).1.length ≤ N := by
  intro nbrs
  induction nbrs with
  | nil => intro visited queue h; simpa [addNeighbors] using h
  | cons n rest ih =>
    intro visited queue h
    by_cases hc : n ∉ visited ∧ visited.length < N
    · rw [addNeighbors, if_pos hc]
      exact ih _ _ (by simp; omega)
    · rw [addNeighbors, if_neg hc]
      exact ih _ _ h

theorem addNeighbors_mono (N : Nat) (nbrs visited queue : List Nat) :
    ∀ x ∈ visited, x ∈ (addNeighbors N nbrs visited queue).1 := by
  obtain ⟨news, heq, -, -, -⟩ := addNeighbors_shape N nbrs visited queue
  rw [heq]
  exact fun x hx => List.mem_append_left _ hx

theorem addNeighbors_complete (N : Nat) :
    ∀ (nbrs visited queue : List Nat),
      (addNeighbors N nbrs visited queue).1.length < N →
      ∀ x ∈ nbrs, x ∈ (addNeighbors N nbrs visited queue).1 := by
  intro nbrs
  induction nbrs with
  | nil => intro _ _ _ x hx; cases hx
  | cons n rest ih =>
    intro visited queue hlen x hx
    by_cases hc : n ∉ visited ∧ visited.length < N
    · rw [addNeighbors, if_pos hc] at hlen ⊢
      rcases List.mem_cons.mp hx with h | h
      · subst h
        exact addNeighbors_mono N rest _ _ x (by simp)
      · exact ih _ _ hlen x h
    · rw [addNeighbors, if_neg hc] at hlen ⊢
      rcases List.mem_cons.mp hx with h | h
      · subst h
        rcases not_and_or.mp hc with h' | h'
        · exact addNeighbors_mono N rest _ _ x (not_not.mp h')
        · exfalso
          obtain ⟨news, heq, -, -, -⟩ := addNeighbors_shape N rest visited queue
          rw [heq] at hlen
          simp at hlen h'
          omega
      · exact ih _ _ hlen x h

/-! ### The induced subgraph -/

theorem adjB_inducedEdges (es : List (Nat × Nat)) (s : List Nat) (u v : Nat) :
    adjB (inducedEdges es s) u v = true ↔
      adjB es u v = true ∧ u ∈ s ∧ v ∈ s := by
  unfold adjB inducedEdges
  simp only [List.any_eq_true, List.mem_filter, Bool.and_eq_true, decide_eq_true_eq]
  constructor
  · rintro ⟨e, ⟨he, h1, h2⟩, hp⟩
    refine ⟨⟨e, he, hp⟩, ?_⟩
    rcases Bool.or_eq_true_iff.mp hp with h' | h' <;>
      rcases Bool.and_eq_true_iff.mp h' with ⟨ha, hb⟩ <;>
      rw [Nat.beq_eq_true_eq] at ha hb <;> subst ha <;> subst hb
    · exact ⟨h1, h2⟩
    · exact ⟨h2, h1⟩
  · rintro ⟨⟨e, he, hp⟩, hu, hv⟩
    refine ⟨e, ⟨he, ?_⟩, hp⟩
    rcases Bool.or_eq_true_iff.mp hp with h' | h' <;>
      rcases Bool.and_eq_true_iff.mp h' with ⟨ha, hb⟩ <;>
      rw [Nat.beq_eq_true_eq] at ha hb <;> subst ha <;> subst hb
    · exact ⟨hu, hv⟩
    · exact ⟨hv, hu⟩

theorem subNodesOf_subset_nodesOf (es : List (Nat × Nat)) (s : List Nat) :
    ∀ x ∈ subNodesOf es s, x ∈ nodesOf es := by
  intro x hx
  exact (List.mem_filter.mp hx).1

/-! ### Reachability -/

/-- Membership in any adjacency-closed set containing `a` is implied by
reachability from `a`. -/
theorem reach_mem_of_closed {es : List (Nat × Nat)} {s : List Nat} {a b : Nat}
    (ha : a ∈ s) (hclosed : ∀ u ∈ s, ∀ v, adjB es u v = true → v ∈ s)
    (h : Reach es a b) : b ∈ s := by
  induction h with
  | refl => exact ha
  | tail _ hadj ih => exact hclosed _ ih _ hadj

/-- Reachability inside the subgraph induced by `s` is monotone in `s`. -/
theorem reachInduced_mono {es : List (Nat × Nat)} {s t : List Nat}
    (hst : ∀ x ∈ s, x ∈ t) {u v : Nat}
    (h : Relation.ReflTransGen (fun a b => adjB (inducedEdges es s) a b = true) u v) :
    Relation.ReflTransGen (fun a b => adjB (inducedEdges es t) a b = true) u v := by
  refine Relation.ReflTransGen.mono ?_ h
  intro a b hab
  rw [adjB_inducedEdges] at hab ⊢
  exact ⟨hab.1, hst _ hab.2.1, hst _ hab.2.2⟩

/-! ### The breadth-first expansion loop invariant -/

/-- What holds of the visited set when the `while` loop exits: it has no
duplicates, contains only nodes reachable from the seed, respects the size
bound, is adjacency-closed unless the bound was reached, and is internally
connected to the seed through the subgraph it induces. -/
def BfsPost (es : List (Nat × Nat)) (N seed : Nat) (r : List Nat) : Prop :=
  r.Nodup ∧ (∀ v ∈ r, Reach es seed v) ∧ r.length ≤ N ∧
  ((∀ u ∈ r, ∀ v, adjB es u v = true → v ∈ r) ∨ N ≤ r.length) ∧
  (∀ v ∈ r,
    Relation.ReflTransGen (fun a b => adjB (inducedEdges es r) a b = true) seed v)

theorem bfsLoop_post (es : List (Nat × Nat)) (N : Nat)
    (perm : Nat → List Nat → List Nat) (hperm : permOK perm) (seed : Nat) :
    ∀ (fuel step : Nat) (visited queue : List Nat),
      queue.length + 2 * (N - visited.length) < fuel →
      visited.Nodup →
      (∀ x ∈ queue, x ∈ visited) →
      (∀ v ∈ visited, Reach es seed v) →
      visited.length ≤ N →
      ((∀ u ∈ visited, u ∉ queue → ∀ v, adjB es u v = true → v ∈ visited) ∨
        N ≤ visited.length) →
      (∀ v ∈ visited,
        Relation.ReflTransGen
          (fun a b => adjB (inducedEdges es visited) a b = true) seed v) →
      BfsPost es N seed (bfsLoop es N perm fuel step visited queue) ∧
      ∀ x ∈ visited, x ∈ bfsLoop es N perm fuel step visited queue := by
  intro fuel
  induction fuel with
  | zero => intro step visited queue hfuel; omega
  | succ fuel ih =>
    intro step visited queue hfuel h1 h2 h3 h4 h5 h6
    rcases queue with _ | ⟨current, rest⟩
    · -- queue empty: the loop exits with the current visited set
      rw [bfsLoop]
      refine ⟨⟨h1, h3, h4, ?_, h6⟩, fun x hx => hx⟩
      rcases h5 with h5 | h5
      · exact Or.inl (fun u hu v hadj => h5 u hu (List.not_mem_nil u) v hadj)
      · exact Or.inr h5
    · by_cases hlt : visited.length < N
      · -- one loop iteration: process `current`, then recurse
        rw [bfsLoop, if_pos hlt]
        obtain ⟨news, heq, hnsub, hfresh, hnnd⟩ :=
          addNeighbors_shape N (perm step (nxNeighbors es current)) visited rest
        simp only [heq]
        have hcur : current ∈ visited := h2 current (List.mem_cons_self _ _)
        have hlen' : (visited ++ news).length ≤ N := by
          have := addNeighbors_len N (perm step (nxNeighbors es current)) visited rest
            (Nat.le_of_lt hlt)
          rw [heq] at this
          exact this
        have hsum : visited.length + news.length ≤ N := by
          simpa using hlen'
        have hmemnews : ∀ x ∈ news, adjB es current x = true := by
          intro x hx
          exact mem_nxNeighbors.mp ((hperm step (nxNeighbors es current)).mem_iff.mp
            (hnsub x hx))
        have hsubv' : ∀ x ∈ visited, x ∈ visited ++ news :=
          fun x hx => List.mem_append_left _ hx
        have hres := ih (step + 1) (visited ++ news) (rest ++ news)
          (by simp at hfuel ⊢; omega)
          (List.nodup_append.mpr ⟨h1, hnnd, fun a ha han => hfresh a han ha⟩)
          (by
            intro x hx
            rcases List.mem_append.mp hx with h | h
            · exact List.mem_append_left _ (h2 x (List.mem_cons_of_mem _ h))
            · exact List.mem_append_right _ h)
          (by
            intro v hv
            rcases List.mem_append.mp hv with h | h
            · exact h3 v h
            · exact Relation.ReflTransGen.tail (h3 current hcur) (hmemnews v h))
          hlen'
          (by
            by_cases hN : N ≤ (visited ++ news).length
            · exact Or.inr hN
            · refine Or.inl ?_
              intro u hu hunq v hadj
              rcases List.mem_append.mp hu with hu | hu
              · by_cases hc : u = current
                · subst hc
                  have hvmem : v ∈ perm step (nxNeighbors es u) :=
                    (hperm step (nxNeighbors es u)).mem_iff.mpr
                      (mem_nxNeighbors.mpr hadj)
                  have := addNeighbors_complete N (perm step (nxNeighbors es u))
                    visited rest (by rw [heq]; exact Nat.lt_of_not_le hN) v hvmem
                  rw [heq] at this
                  exact this
                · rcases h5 with h5 | h5
                  · have : u ∉ current :: rest := by
                      intro hmem
                      rcases List.mem_cons.mp hmem with h | h
                      · exact hc h
                      · exact hunq (List.mem_append_left _ h)
                    exact List.mem_append_left _ (h5 u hu this v hadj)
                  · omega
              · exact absurd (List.mem_append_right rest hu) hunq)
          (by
            intro v hv
            rcases List.mem_append.mp hv with h | h
            · exact reachInduced_mono hsubv' (h6 v h)
            · refine Relation.ReflTransGen.tail (reachInduced_mono hsubv' (h6 current hcur)) ?_
              rw [adjB_inducedEdges]
              exact ⟨hmemnews v h, List.mem_append_left _ hcur, List.mem_append_right _ h⟩)
        exact ⟨hres.1, fun x hx => hres.2 x (List.mem_append_left _ hx)⟩
      · -- the bound has been reached: the loop exits
        rw [bfsLoop, if_neg hlt]
        exact ⟨⟨h1, h3, h4, Or.inr (Nat.le_of_not_lt hlt), h6⟩, fun x hx => hx⟩

/-- The postcondition holds of the whole expansion whenever the target size is
positive, together with the fact that the seed is in the Sample Set. -/
theorem bfsFrom_post (es : List (Nat × Nat)) (N : Nat)
    (perm : Nat → List Nat → List Nat) (hperm : permOK perm) (seed : Nat)
    (hN : 0 < N) :
    BfsPost es N seed (bfsFrom es N perm seed) ∧ seed ∈ bfsFrom es N perm seed := by
  have h := bfsLoop_post es N perm hperm seed (2 * N + 2) 0 [seed] [seed]
    (by simp; omega)
    (List.nodup_singleton seed)
    (fun x hx => hx)
    (by
      intro v hv
      rw [List.mem_singleton] at hv
      subst hv
      exact Relation.ReflTransGen.refl)
    (by simpa using hN)
    (Or.inl (by
      intro u hu hunq
      exact absurd hu hunq))
    (by
      intro v hv
      rw [List.mem_singleton] at hv
      subst hv
      exact Relation.ReflTransGen.refl)
  exact ⟨h.1, h.2 seed (List.mem_singleton_self seed)⟩

/-! ### The connected component, by saturation -/

theorem expandOnce_subset (es : List (Nat × Nat)) (s : List Nat) :
    ∀ x ∈ s, x ∈ expandOnce es s :=
  fun _ hx => List.mem_append_left _ hx

theorem expandOnce_nodup {es : List (Nat × Nat)} {s : List Nat}
    (h : s.Nodup) : (expandOnce es s).Nodup := by
  refine List.nodup_append.mpr ⟨h, List.Nodup.filter _ (List.nodup_dedup _), ?_⟩
  intro a ha hmem
  have := (List.mem_filter.mp hmem).2
  rw [decide_eq_true_eq] at this
  exact this ha

theorem expandOnce_mem {es : List (Nat × Nat)} {s : List Nat} {x : Nat}
    (h : x ∈ expandOnce es s) : x ∈ s ∨ ∃ u ∈ s, adjB es u x = true := by
  rcases List.mem_append.mp h with h | h
  · exact Or.inl h
  · obtain ⟨hmem, -⟩ := List.mem_filter.mp h
    obtain ⟨u, hu, hx⟩ := List.mem_flatMap.mp (List.mem_dedup.mp hmem)
    exact Or.inr ⟨u, hu, mem_nxNeighbors.mp hx⟩

/-- A fixed point of the saturation step is adjacency-closed. -/
theorem closed_of_expandOnce_eq {es : List (Nat × Nat)} {s : List Nat}
    (h : expandOnce es s = s) :
    ∀ u ∈ s, ∀ v, adjB es u v = true → v ∈ s := by
  intro u hu v hadj
  by_contra hv
  have hvnews : v ∈ (s.flatMap (nxNeighbors es)).dedup.filter (fun w => decide (w ∉ s)) := by
    rw [List.mem_filter, List.mem_dedup, List.mem_flatMap]
    exact ⟨⟨u, hu, mem_nxNeighbors.mpr hadj⟩, by simpa using hv⟩
  have : v ∈ expandOnce es s := List.mem_append_right _ hvnews
  rw [h] at this
  exact hv this

/-- If the saturation step moves, the list strictly grows. -/
theorem expandOnce_grow {es : List (Nat × Nat)} {s : List Nat}
    (h : expandOnce es s ≠ s) : s.length + 1 ≤ (expandOnce es s).length := by
  unfold expandOnce at h ⊢
  rcases hnews : (s.flatMap (nxNeighbors es)).dedup.filter (fun w => decide (w ∉ s)) with
    _ | ⟨a, t⟩
  · rw [hnews] at h
    simp at h
  · simp only [List.length_append, List.length_cons]
    omega

/-- Running invariant of the saturation iteration. -/
theorem iterExpand_inv (es : List (Nat × Nat)) (seed : Nat) :
    ∀ k : Nat,
      ((expandOnce es)^[k] [seed]).Nodup ∧
      (∀ x ∈ (expandOnce es)^[k] [seed], x = seed ∨ x ∈ nodesOf es) ∧
      seed ∈ (expandOnce es)^[k] [seed] ∧
      (∀ x ∈ (expandOnce es)^[k] [seed], Reach es seed x) := by
  intro k
  induction k with
  | zero =>
    simp only [Function.iterate_zero_apply]
    refine ⟨List.nodup_singleton seed, ?_, List.mem_singleton_self seed, ?_⟩
    · intro x hx
      rw [List.mem_singleton] at hx
      exact Or.inl hx
    · intro x hx
      rw [List.mem_singleton] at hx
      subst hx
      exact Relation.ReflTransGen.refl
  | succ k ih =>
    obtain ⟨ihnd, ihuniv, ihseed, ihreach⟩ := ih
    rw [Function.iterate_succ_apply']
    refine ⟨expandOnce_nodup ihnd, ?_, expandOnce_subset es _ seed ihseed, ?_⟩
    · intro x hx
      rcases expandOnce_mem hx with h | ⟨u, hu, hadj⟩
      · exact ihuniv x h
      · exact Or.inr (adjB_mem_nodesOf hadj).2
    · intro x hx
      rcases expandOnce_mem hx with h | ⟨u, hu, hadj⟩
      · exact ihreach x h
      · exact Relation.ReflTransGen.tail (ihreach u hu) hadj

/-- Either the saturation has already reached a fixed point after `k` rounds,
or the set has grown at every round so far. -/
theorem iterExpand_fix_or_grow (es : List (Nat × Nat)) (seed : Nat) :
    ∀ k : Nat,
      expandOnce es ((expandOnce es)^[k] [seed]) = (expandOnce es)^[k] [seed] ∨
      k + 1 ≤ ((expandOnce es)^[k] [seed]).length := by
  intro k
  induction k with
  | zero => simp
  | succ k ih =>
    rcases ih with hfix | hlen
    · left
      rw [Function.iterate_succ_apply', hfix, hfix]
    · by_cases hfix : expandOnce es ((expandOnce es)^[k] [seed]) = (expandOnce es)^[k] [seed]
      · left
        rw [Function.iterate_succ_apply', hfix, hfix]
      · right
        rw [Function.iterate_succ_apply']
        have := expandOnce_grow hfix
        omega

/-- After `(nodesOf es).length + 1` rounds the saturation is a fixed point:
the iterate is a Nodup list inside `seed :: nodesOf es`, so it cannot have
grown at every one of those rounds. -/
theorem componentList_fixed (es : List (Nat × Nat)) (seed : Nat) :
    expandOnce es (componentList es seed) = componentList es seed := by
  unfold componentList
  rcases iterExpand_fix_or_grow es seed ((nodesOf es).length + 1) with h | h
  · exact h
  · exfalso
    obtain ⟨hnd, huniv, -, -⟩ := iterExpand_inv es seed ((nodesOf es).length + 1)
    have hsub : (expandOnce es)^[(nodesOf es).length + 1] [seed] ⊆ seed :: nodesOf es := by
      intro x hx
      rcases huniv x hx with h' | h'
      · exact h' ▸ List.mem_cons_self _ _
      · exact List.mem_cons_of_mem _ h'
    have hle := (List.subperm_of_subset hnd hsub).length_le
    rw [List.length_cons] at hle
    omega

theorem componentList_nodup (es : List (Nat × Nat)) (seed : Nat) :
    (componentList es seed).Nodup :=
  (iterExpand_inv es seed _).1

theorem componentList_seed_mem (es : List (Nat × Nat)) (seed : Nat) :
    seed ∈ componentList es seed :=
  (iterExpand_inv es seed _).2.2.1

theorem componentList_reach (es : List (Nat × Nat)) (seed : Nat) :
    ∀ x ∈ componentList es seed, Reach es seed x :=
  (iterExpand_inv es seed _).2.2.2

theorem componentList_closed (es : List (Nat × Nat)) (seed : Nat) :
    ∀ u ∈ componentList es seed, ∀ v, adjB es u v = true → v ∈ componentList es seed :=
  closed_of_expandOnce_eq (componentList_fixed es seed)

/-- `componentList` contains every node reachable from the seed; with
`componentList_reach` it is exactly the connected component of the seed. -/
theorem componentList_complete (es : List (Nat × Nat)) (seed : Nat) :
    ∀ v, Reach es seed v → v ∈ componentList es seed :=
  fun _ h =>
    reach_mem_of_closed (componentList_seed_mem es seed) (componentList_closed es seed) h

/-! ### Claim C1: exact Sample Set size -/

/-- C1: for every input edge list and every positive target size `num_nodes`,
under any admissible behaviour of `random.shuffle`, the Sample Set produced by
the bounded breadth-first expansion from the seed has size exactly
`min(num_nodes, size of the connected component of the seed in the full
graph)`; in particular it never exceeds `num_nodes`. -/
theorem sampleSet_size_eq_min (es : List (Nat × Nat)) (numNodes : Nat)
    (perm : Nat → List Nat → List Nat) (seed : Nat)
    (hpos : 0 < numNodes) (hperm : permOK perm) :
    (bfsFrom es numNodes perm seed).length =
      min numNodes (componentList es seed).length := by
  obtain ⟨⟨hnd, hreach, hle, hdisj, -⟩, hseed⟩ :=
    bfsFrom_post es numNodes perm hperm seed hpos
  have hrsub : bfsFrom es numNodes perm seed ⊆ componentList es seed :=
    fun x hx => componentList_complete es seed x (hreach x hx)
  have hrlen : (bfsFrom es numNodes perm seed).length ≤ (componentList es seed).length :=
    (List.subperm_of_subset hnd hrsub).length_le
  rcases hdisj with hclosed | hge
  · -- the queue drained before the bound: the sample is the whole component
    have hcsub : componentList es seed ⊆ bfsFrom es numNodes perm seed :=
      fun x hx => reach_mem_of_closed hseed hclosed (componentList_reach es seed x hx)
    have hclen : (componentList es seed).length ≤ (bfsFrom es numNodes perm seed).length :=
      (List.subperm_of_subset (componentList_nodup es seed) hcsub).length_le
    have heq : (componentList es seed).length = (bfsFrom es numNodes perm seed).length :=
      Nat.le_antisymm hclen hrlen
    rw [heq, Nat.min_eq_right hle]
  · -- the bound was reached: the sample has exactly `numNodes` nodes
    have heq : (bfsFrom es numNodes perm seed).length = numNodes :=
      Nat.le_antisymm hle hge
    rw [heq, Nat.min_eq_left (heq ▸ hrlen)]

theorem sampleSet_size_eq_min_witness :
    0 < 2 ∧ permOK permId ∧
    (bfsFrom [(0, 1), (1, 2)] 2 permId 0).length =
      min 2 (componentList [(0, 1), (1, 2)] 0).length :=
  ⟨by decide, fun _ l => List.Perm.refl l,
    sampleSet_size_eq_min [(0, 1), (1, 2)] 2 permId 0 (by decide)
      (fun _ l => List.Perm.refl l)⟩

/-! ### Claim C6: the sampled subgraph is connected -/

/-- C6: whenever the expansion runs (positive target, admissible shuffles),
every pair of nodes of the Sample Set is joined by a path lying inside the
node-induced Sampled Subgraph: each node added by the expansion is adjacent to
an already-visited node. -/
theorem sampleSubgraph_connected (es : List (Nat × Nat)) (numNodes : Nat)
    (perm : Nat → List Nat → List Nat) (seed u v : Nat)
    (hpos : 0 < numNodes) (hperm : permOK perm)
    (hu : u ∈ bfsFrom es numNodes perm seed)
    (hv : v ∈ bfsFrom es numNodes perm seed) :
    Relation.ReflTransGen
      (fun a b => adjB (inducedEdges es (bfsFrom es numNodes perm seed)) a b = true)
      u v := by
  obtain ⟨⟨-, -, -, -, hconn⟩, -⟩ := bfsFrom_post es numNodes perm hperm seed hpos
  have hsym : Symmetric
      (fun a b => adjB (inducedEdges es (bfsFrom es numNodes perm seed)) a b = true) := by
    intro a b hab
    rw [adjB_symm] at hab
    exact hab
  exact Relation.ReflTransGen.trans
    (Relation.ReflTransGen.symmetric hsym (hconn u hu)) (hconn v hv)

theorem sampleSubgraph_connected_witness :
    0 < 3 ∧ permOK permId ∧
    0 ∈ bfsFrom [(0, 1), (1, 2)] 3 permId 0 ∧
    2 ∈ bfsFrom [(0, 1), (1, 2)] 3 permId 0 ∧
    Relation.ReflTransGen
      (fun a b =>
        adjB (inducedEdges [(0, 1), (1, 2)] (bfsFrom [(0, 1), (1, 2)] 3 permId 0)) a b = true)
      0 2 :=
  ⟨by decide, fun _ l => List.Perm.refl l, by decide, by decide,
    sampleSubgraph_connected [(0, 1), (1, 2)] 3 permId 0 0 2 (by decide)
      (fun _ l => List.Perm.refl l) (by decide) (by decide)⟩

/-! ### Unpacking a successful run of the pipeline -/

/-- Inversion for a normally completed call: every field of the result is the
stated function of the chosen seed and the input. -/
theorem networkViz_inversion
    (L : List (Nat × Nat) → List Nat → Nat → List (Nat × ℚ × ℚ))
    (es : List (Nat × Nat)) (N : Nat)
    (p : Nat → List Nat → List Nat) (i : Nat) (viz : VizResult)
    (h : networkViz L es N p i = some viz) :
    ∃ seed, chooseStart es i = some seed ∧
      viz.sample = bfsFrom es N p seed ∧
      subDegreeList es viz.sample ≠ [] ∧
      viz.subNodes = subNodesOf es viz.sample ∧
      viz.subEdges = inducedEdges es viz.sample ∧
      viz.threshold = np70 (subDegreeList es viz.sample) ∧
      viz.popular =
        viz.subNodes.filter (fun n => decide (viz.threshold ≤ (nxDegree viz.subEdges n : ℚ))) ∧
      viz.regular =
        viz.subNodes.filter (fun n => decide ((nxDegree viz.subEdges n : ℚ) < viz.threshold)) ∧
      viz.layout = L viz.subEdges viz.subNodes 42 ∧
      viz.popularMean = npMean (viz.popular.map (fun n => nxDegree viz.subEdges n)) ∧
      viz.regularMean = npMean (viz.regular.map (fun n => nxDegree viz.subEdges n)) ∧
      viz.maxDegree = (subDegreeList es viz.sample).foldr max 0 := by
  revert h
  unfold networkViz
  rcases hcs : chooseStart es i with _ | seed
  · intro h
    cases h
  · dsimp only
    rcases hp : npPercentile70 (subDegreeList es (bfsFrom es N p seed)) with _ | thr
    · intro h
      cases h
    · intro h
      have hne : subDegreeList es (bfsFrom es N p seed) ≠ [] := by
        intro hnil
        rw [npPercentile70, if_pos hnil] at hp
        cases hp
      have hthr : thr = np70 (subDegreeList es (bfsFrom es N p seed)) := by
        rw [npPercentile70, if_neg hne] at hp
        exact (Option.some.injEq _ _ ▸ hp).symm
      injection h with h'
      subst h'
      subst hthr
      exact ⟨seed, rfl, rfl, hne, rfl, rfl, rfl, rfl, rfl, rfl, rfl, rfl, rfl⟩

/-! ### Concrete inputs used by the witnesses -/

/-- A star: node 0 joined to nodes 1..20, so node 0 has full-graph degree 20
(inside the moderate band) and every leaf has degree 1. -/
def star20 : List (Nat × Nat) := (List.range 20).map (fun k => (0, k + 1))

/-- A concrete stand-in for `nx.spring_layout` in witnesses. -/
def probeLayout : List (Nat × Nat) → List Nat → Nat → List (Nat × ℚ × ℚ) :=
  fun _ ns s => ns.map (fun n => (n, ((n : ℚ), (s : ℚ))))

/-- The run of the pipeline on `star20` with target size 2 (seed 0, identity
shuffles): its Sample Set is `{0, 1}` and its subgraph is a single edge, so
both subgraph degrees equal 1. -/
def vizStar : VizResult :=
  (networkViz probeLayout star20 2 permId 0).getD
    ⟨[], [], [], 0, [], [], [], none, none, 0⟩

/-! ### Claim C2: the Sampled Subgraph is the induced subgraph -/

/-- C2: for every completed run, the Sampled Subgraph's node set is a subset
of the full graph's node set, and an edge joins `u` and `v` in the subgraph
iff it is an edge of the full graph with both endpoints in the Sample Set. -/
theorem sampledSubgraph_induced
    (L : List (Nat × Nat) → List Nat → Nat → List (Nat × ℚ × ℚ))
    (es : List (Nat × Nat)) (N : Nat)
    (p : Nat → List Nat → List Nat) (i : Nat) (viz : VizResult) (x u v : Nat)
    (h : networkViz L es N p i = some viz) :
    (x ∈ viz.subNodes → x ∈ nodesOf es) ∧
    (adjB viz.subEdges u v = true ↔
      adjB es u v = true ∧ u ∈ viz.sample ∧ v ∈ viz.sample) := by
  obtain ⟨seed, -, -, -, hsubN, hsubE, -⟩ := networkViz_inversion L es N p i viz h
  constructor
  · intro hx
    exact subNodesOf_subset_nodesOf es viz.sample x (hsubN ▸ hx)
  · rw [hsubE]
    exact adjB_inducedEdges es viz.sample u v

theorem sampledSubgraph_induced_witness :
    networkViz probeLayout star20 2 permId 0 = some vizStar ∧
    ((0 ∈ vizStar.subNodes → 0 ∈ nodesOf star20) ∧
      (adjB vizStar.subEdges 0 1 = true ↔
        adjB star20 0 1 = true ∧ 0 ∈ vizStar.sample ∧ 1 ∈ vizStar.sample)) :=
  ⟨rfl,
    sampledSubgraph_induced probeLayout star20 2 permId 0 vizStar 0 0 1 rfl⟩

/-! ### Claim C3: the seed always lies in the moderate-degree band -/

/-- C3: if some node of the full graph has degree in the inclusive band
[20, 100], then seed selection succeeds and the selected seed's full-graph
degree lies in that band, whatever the random draw `i`. -/
theorem seed_selection_in_band (es : List (Nat × Nat)) (i n : Nat)
    (hn : n ∈ nodesOf es) (h20 : 20 ≤ nxDegree es n) (h100 : nxDegree es n ≤ 100) :
    (chooseStart es i).isSome = true ∧
    20 ≤ nxDegree es ((chooseStart es i).getD 0) ∧
    nxDegree es ((chooseStart es i).getD 0) ≤ 100 := by
  have hmem : n ∈ moderateNodes es :=
    List.mem_filter.mpr ⟨hn, by simp [h20, h100]⟩
  have hlen : 0 < (moderateNodes es).length :=
    List.length_pos.mpr (List.ne_nil_of_mem hmem)
  have hidx : i % (moderateNodes es).length < (moderateNodes es).length :=
    Nat.mod_lt i hlen
  unfold chooseStart
  rw [List.get?_eq_get hidx]
  have hget := List.get_mem (moderateNodes es) _ hidx
  have hprop := (List.mem_filter.mp hget).2
  rw [decide_eq_true_eq] at hprop
  exact ⟨rfl, hprop.1, hprop.2⟩

theorem seed_selection_in_band_witness :
    0 ∈ nodesOf star20 ∧ 20 ≤ nxDegree star20 0 ∧ nxDegree star20 0 ≤ 100 ∧
    ((chooseStart star20 5).isSome = true ∧
      20 ≤ nxDegree star20 ((chooseStart star20 5).getD 0) ∧
      nxDegree star20 ((chooseStart star20 5).getD 0) ≤ 100) :=
  ⟨by decide, by decide, by decide,
    seed_selection_in_band star20 5 0 (by decide) (by decide) (by decide)⟩

/-! ### Claim C7: no moderate-degree node means the call raises -/

/-- C7: on a full graph in which no node's degree lies in [20, 100], seed
selection fails (`random.choice` on the empty candidate list raises) and the
call returns no subgraph, for every sample-size target and random draw. -/
theorem no_moderate_seed_fails
    (L : List (Nat × Nat) → List Nat → Nat → List (Nat × ℚ × ℚ))
    (es : List (Nat × Nat)) (N : Nat)
    (p : Nat → List Nat → List Nat) (i : Nat)
    (h : ∀ n ∈ nodesOf es, nxDegree es n < 20 ∨ 100 < nxDegree es n) :
    networkViz L es N p i = none := by
  have hmod : moderateNodes es = [] := by
    unfold moderateNodes
    rw [List.filter_eq_nil_iff]
    intro a ha
    rcases h a ha with h' | h' <;> simp <;> omega
  have hcs : chooseStart es i = none := by
    unfold chooseStart
    rw [hmod]
    rfl
  unfold networkViz
  rw [hcs]

theorem no_moderate_seed_fails_witness :
    (∀ n ∈ nodesOf [(1, 2), (2, 3), (3, 1), (1, 4)],
      nxDegree [(1, 2), (2, 3), (3, 1), (1, 4)] n < 20 ∨
      100 < nxDegree [(1, 2), (2, 3), (3, 1), (1, 4)] n) ∧
    networkViz probeLayout [(1, 2), (2, 3), (3, 1), (1, 4)] 4 permId 0 = none :=
  ⟨by decide,
    no_moderate_seed_fails probeLayout [(1, 2), (2, 3), (3, 1), (1, 4)] 4 permId 0
      (by decide)⟩

/-! ### Facts about the 70th percentile -/

theorem le_foldr_max (l : List Nat) : ∀ x ∈ l, x ≤ l.foldr max 0 := by
  induction l with
  | nil => intro x hx; cases hx
  | cons a t ih =>
    intro x hx
    rcases List.mem_cons.mp hx with h | h
    · subst h
      simp only [List.foldr_cons]
      exact le_max_left _ _
    · simp only [List.foldr_cons]
      exact le_trans (ih x h) (le_max_right _ _)

theorem foldr_max_mem (l : List Nat) (h : l ≠ []) : l.foldr max 0 ∈ l := by
  induction l with
  | nil => exact absurd rfl h
  | cons a t ih =>
    rcases eq_or_ne t [] with rfl | hne
    · simp
    · simp only [List.foldr_cons]
      rcases le_total (t.foldr max 0) a with hle | hle
      · rw [max_eq_left hle]
        exact List.mem_cons_self _ _
      · rw [max_eq_right hle]
        exact List.mem_cons_of_mem _ (ih hne)

/-- The interpolated 70th percentile never exceeds the maximum of the data. -/
theorem np70_le_max (l : List Nat) (h : l ≠ []) :
    np70 l ≤ ((l.foldr max 0 : Nat) : ℚ) := by
  simp only [np70]
  have hperm := List.perm_insertionSort (· ≤ ·) l
  have hsorted := List.sorted_insertionSort (· ≤ ·) l
  set s := List.insertionSort (· ≤ ·) l with hs
  have hne : s ≠ [] := by
    intro h0
    rw [h0] at hperm
    exact h hperm.symm.eq_nil
  have hn : 0 < s.length := List.length_pos.mpr hne
  set M : ℚ := ((l.foldr max 0 : Nat) : ℚ) with hM
  have hMmem : ∀ x ∈ s, (x : ℚ) ≤ M := by
    intro x hx
    rw [hM]
    exact_mod_cast le_foldr_max l x (hperm.mem_iff.mp hx)
  set p : ℚ := 7 * ((s.length : ℚ) - 1) / 10 with hp
  have h1n : (1 : ℚ) ≤ (s.length : ℚ) := by exact_mod_cast hn
  have hp0 : 0 ≤ p := by rw [hp]; linarith
  have hfl : ((⌊p⌋₊ : ℚ)) ≤ p := Nat.floor_le hp0
  have hfl1 : p < (⌊p⌋₊ : ℚ) + 1 := Nat.lt_floor_add_one p
  by_cases hi : ⌊p⌋₊ + 1 < s.length
  · have hi0 : ⌊p⌋₊ < s.length := Nat.lt_of_succ_lt hi
    rw [List.getD_eq_getElem s 0 hi0, List.getD_eq_getElem s _ hi]
    have hd01 : s[⌊p⌋₊] ≤ s[⌊p⌋₊ + 1] := by
      have := List.Sorted.rel_get_of_lt hsorted
        (a := ⟨⌊p⌋₊, hi0⟩) (b := ⟨⌊p⌋₊ + 1, hi⟩) (by simp [Fin.lt_def])
      simpa using this
    have hd01q : (0 : ℚ) ≤ (s[⌊p⌋₊ + 1] : ℚ) - (s[⌊p⌋₊] : ℚ) := by
      rw [sub_nonneg]
      exact_mod_cast hd01
    have hstep : (p - (⌊p⌋₊ : ℚ)) * ((s[⌊p⌋₊ + 1] : ℚ) - (s[⌊p⌋₊] : ℚ)) ≤
        1 * ((s[⌊p⌋₊ + 1] : ℚ) - (s[⌊p⌋₊] : ℚ)) :=
      mul_le_mul_of_nonneg_right (by linarith) hd01q
    have hm1 : (s[⌊p⌋₊ + 1] : ℚ) ≤ M := hMmem _ (List.getElem_mem _)
    linarith
  · rw [List.getD_eq_default s _ (Nat.le_of_not_lt hi)]
    by_cases hi0 : ⌊p⌋₊ < s.length
    · rw [List.getD_eq_getElem s 0 hi0]
      have := hMmem _ (List.getElem_mem hi0)
      simp only [sub_self, mul_zero, add_zero]
      exact this
    · rw [List.getD_eq_default s 0 (Nat.le_of_not_lt hi0)]
      have : (0 : ℚ) ≤ M := by rw [hM]; exact_mod_cast Nat.zero_le _
      simp only [Nat.cast_zero, sub_self, mul_zero, add_zero]
      exact this

/-- The interpolated 70th percentile of constant data is that constant. -/
theorem np70_const (l : List Nat) (d : Nat) (h : l ≠ [])
    (hall : ∀ x ∈ l, x = d) : np70 l = (d : ℚ) := by
  simp only [np70]
  have hperm := List.perm_insertionSort (· ≤ ·) l
  set s := List.insertionSort (· ≤ ·) l with hs
  have halls : ∀ x ∈ s, x = d := fun x hx => hall x (hperm.mem_iff.mp hx)
  have hne : s ≠ [] := by
    intro h0
    rw [h0] at hperm
    exact h hperm.symm.eq_nil
  have hn : 0 < s.length := List.length_pos.mpr hne
  set p : ℚ := 7 * ((s.length : ℚ) - 1) / 10 with hp
  have h1n : (1 : ℚ) ≤ (s.length : ℚ) := by exact_mod_cast hn
  have hple : p ≤ (s.length : ℚ) - 1 := by rw [hp]; linarith
  have hcast : ((s.length - 1 : ℕ) : ℚ) = (s.length : ℚ) - 1 := by
    have h1 : (1 : ℕ) ≤ s.length := hn
    push_cast [h1]
    ring
  have hfloorle : ⌊p⌋₊ ≤ s.length - 1 := by
    calc ⌊p⌋₊ ≤ ⌊((s.length - 1 : ℕ) : ℚ)⌋₊ :=
          Nat.floor_le_floor (by rw [hcast]; exact hple)
      _ = s.length - 1 := Nat.floor_natCast _
  have hi0 : ⌊p⌋₊ < s.length := by omega
  rw [List.getD_eq_getElem s 0 hi0]
  have hd0 : s[⌊p⌋₊] = d := halls _ (List.getElem_mem hi0)
  by_cases hi : ⌊p⌋₊ + 1 < s.length
  · rw [List.getD_eq_getElem s _ hi, hd0, halls _ (List.getElem_mem hi)]
    ring
  · rw [List.getD_eq_default s _ (Nat.le_of_not_lt hi), hd0]
    ring

/-! ### Claim C4: the classification is a partition -/

/-- C4: in every completed run, each subgraph node lies in exactly one of the
two groups — `popular` when its subgraph degree is ≥ the threshold, `regular`
when it is < — and a node whose degree equals the threshold lands in the
high-connectivity group. -/
theorem classification_partition
    (L : List (Nat × Nat) → List Nat → Nat → List (Nat × ℚ × ℚ))
    (es : List (Nat × Nat)) (N : Nat)
    (p : Nat → List Nat → List Nat) (i : Nat) (viz : VizResult) (n : Nat)
    (h : networkViz L es N p i = some viz) (hn : n ∈ viz.subNodes) :
    ((n ∈ viz.popular ∧ n ∉ viz.regular) ∨ (n ∈ viz.regular ∧ n ∉ viz.popular)) ∧
    ((nxDegree viz.subEdges n : ℚ) = viz.threshold → n ∈ viz.popular) := by
  obtain ⟨seed, -, -, -, -, -, -, hpop, hreg, -, -, -, -⟩ :=
    networkViz_inversion L es N p i viz h
  have hpop_mem : n ∈ viz.popular ↔ viz.threshold ≤ (nxDegree viz.subEdges n : ℚ) := by
    rw [hpop, List.mem_filter, decide_eq_true_eq]
    exact ⟨fun h' => h'.2, fun h' => ⟨hn, h'⟩⟩
  have hreg_mem : n ∈ viz.regular ↔ (nxDegree viz.subEdges n : ℚ) < viz.threshold := by
    rw [hreg, List.mem_filter, decide_eq_true_eq]
    exact ⟨fun h' => h'.2, fun h' => ⟨hn, h'⟩⟩
  constructor
  · by_cases hcmp : viz.threshold ≤ (nxDegree viz.subEdges n : ℚ)
    · exact Or.inl ⟨hpop_mem.mpr hcmp, fun hr => absurd (hreg_mem.mp hr) (not_lt.mpr hcmp)⟩
    · exact Or.inr ⟨hreg_mem.mpr (lt_of_not_le hcmp),
        fun hp' => absurd (hpop_mem.mp hp') hcmp⟩
  · intro heq
    exact hpop_mem.mpr (le_of_eq heq.symm)

theorem classification_partition_witness :
    networkViz probeLayout star20 2 permId 0 = some vizStar ∧
    0 ∈ vizStar.subNodes ∧
    (((0 ∈ vizStar.popular ∧ 0 ∉ vizStar.regular) ∨
        (0 ∈ vizStar.regular ∧ 0 ∉ vizStar.popular)) ∧
      ((nxDegree vizStar.subEdges 0 : ℚ) = vizStar.threshold → 0 ∈ vizStar.popular)) :=
  ⟨rfl, by decide,
    classification_partition probeLayout star20 2 permId 0 vizStar 0 rfl (by decide)⟩

/-! ### Claim C10: the popular group is never empty -/

/-- C10: in every completed run the high-connectivity group is non-empty — a
node of maximum subgraph degree meets the 70th-percentile threshold — so the
popular-group mean is computed over a non-empty list. -/
theorem popular_group_nonempty
    (L : List (Nat × Nat) → List Nat → Nat → List (Nat × ℚ × ℚ))
    (es : List (Nat × Nat)) (N : Nat)
    (p : Nat → List Nat → List Nat) (i : Nat) (viz : VizResult)
    (h : networkViz L es N p i = some viz) :
    viz.popular ≠ [] ∧ viz.popularMean.isSome = true := by
  obtain ⟨seed, -, -, hne, hsubN, hsubE, hthr, hpop, -, -, hpm, -, -⟩ :=
    networkViz_inversion L es N p i viz h
  have hM := foldr_max_mem (subDegreeList es viz.sample) hne
  rw [subDegreeList, List.mem_map] at hM
  obtain ⟨n0, hn0, hdn0⟩ := hM
  have hthr_le :
      viz.threshold ≤ (((subDegreeList es viz.sample).foldr max 0 : Nat) : ℚ) := by
    rw [hthr]
    exact np70_le_max _ hne
  rw [subDegreeList] at hthr_le
  have hn0pop : n0 ∈ viz.popular := by
    rw [hpop, List.mem_filter, decide_eq_true_eq]
    refine ⟨hsubN ▸ hn0, ?_⟩
    rw [hsubE, hdn0]
    exact hthr_le
  refine ⟨List.ne_nil_of_mem hn0pop, ?_⟩
  rw [hpm, npMean, if_neg (by simp [List.ne_nil_of_mem hn0pop])]
  rfl

theorem popular_group_nonempty_witness :
    networkViz probeLayout star20 2 permId 0 = some vizStar ∧
    (vizStar.popular ≠ [] ∧ vizStar.popularMean.isSome = true) :=
  ⟨rfl, popular_group_nonempty probeLayout star20 2 permId 0 vizStar rfl⟩

/-! ### Claim C8: a uniform-degree sample does NOT make the call fail -/

/-- C8 counterexample: a concrete run whose Sampled Subgraph has a uniform
degree distribution (both subgraph degrees are 1) and which nonetheless
completes normally — refuting the claim that such inputs surface as an
uncaught error from the numeric operations. -/
theorem uniform_degree_completes_cex :
    subDegreeList star20 vizStar.sample = [1, 1] ∧
    (networkViz probeLayout star20 2 permId 0).isSome = true :=
  ⟨by decide, by decide⟩

/-- C8 as amended: on a completed run whose subgraph degrees are all equal to
`d`, the classification is degenerate — the threshold is `d`, every node is
classified high-connectivity, the regular group is empty, and its mean-degree
statistic is computed over an empty list (NaN, modelled `none`) — but the call
completes normally rather than raising. -/
theorem uniform_degree_degenerate
    (L : List (Nat × Nat) → List Nat → Nat → List (Nat × ℚ × ℚ))
    (es : List (Nat × Nat)) (N : Nat)
    (p : Nat → List Nat → List Nat) (i : Nat) (viz : VizResult) (d : Nat)
    (h : networkViz L es N p i = some viz)
    (hall : ∀ x ∈ subDegreeList es viz.sample, x = d) :
    viz.threshold = (d : ℚ) ∧ viz.popular = viz.subNodes ∧
    viz.regular = [] ∧ viz.regularMean = none := by
  obtain ⟨seed, -, -, hne, hsubN, hsubE, hthr, hpop, hreg, -, -, hrm, -⟩ :=
    networkViz_inversion L es N p i viz h
  have hthr' : viz.threshold = (d : ℚ) := by
    rw [hthr]
    exact np70_const _ d hne hall
  have hdeg : ∀ n0 ∈ viz.subNodes, nxDegree viz.subEdges n0 = d := by
    intro n0 hn0
    apply hall
    rw [subDegreeList, List.mem_map]
    exact ⟨n0, hsubN ▸ hn0, by rw [hsubE]⟩
  have hregnil : viz.regular = [] := by
    rw [hreg, List.filter_eq_nil_iff]
    intro a ha
    rw [decide_eq_true_eq, hdeg a ha, hthr']
    exact lt_irrefl _
  refine ⟨hthr', ?_, hregnil, ?_⟩
  · rw [hpop]
    apply List.filter_eq_self.mpr
    intro a ha
    rw [decide_eq_true_eq, hdeg a ha, hthr']
  · rw [hrm, hregnil]
    rfl

theorem uniform_degree_degenerate_witness :
    networkViz probeLayout star20 2 permId 0 = some vizStar ∧
    (∀ x ∈ subDegreeList star20 vizStar.sample, x = 1) ∧
    (vizStar.threshold = ((1 : Nat) : ℚ) ∧ vizStar.popular = vizStar.subNodes ∧
      vizStar.regular = [] ∧ vizStar.regularMean = none) :=
  ⟨rfl, by decide,
    uniform_degree_degenerate probeLayout star20 2 permId 0 vizStar 1 rfl (by decide)⟩

/-- Concrete evaluation: the 70th percentile of `[1, 2]` interpolates to
`1.7`. -/
theorem np70_pair : np70 [1, 2] = 17 / 10 := by
  have hs : List.insertionSort (· ≤ ·) [1, 2] = [1, 2] := by decide
  simp only [np70, hs, List.length_cons, List.length_nil]
  have hp : 7 * (((0 + 1 + 1 : ℕ) : ℚ) - 1) / 10 = 7 / 10 := by norm_num
  rw [hp]
  have hfl : ⌊(7 / 10 : ℚ)⌋₊ = 0 := Nat.floor_eq_zero.mpr (by norm_num)
  rw [hfl]
  simp only [List.getD, List.get?, Option.getD]
  norm_num

/-! ### Claim C5: the threshold comes from subgraph degrees, not full-graph
degrees -/

/-- C5: in every completed run the classification threshold is the 70th
percentile of the degree distribution recomputed within the Sampled Subgraph
(it is a function of the subgraph alone), and this genuinely differs from
using the degrees the nodes had in the full graph: on the path `1-2-3`
sampled at `{1, 2}`, the subgraph-degree percentile is `1` while the
full-graph-degree percentile would be `1.7`. -/
theorem threshold_recomputed_in_subgraph
    (L : List (Nat × Nat) → List Nat → Nat → List (Nat × ℚ × ℚ))
    (es : List (Nat × Nat)) (N : Nat)
    (p : Nat → List Nat → List Nat) (i : Nat) (viz : VizResult)
    (es2 : List (Nat × Nat)) (s2 : List Nat)
    (h : networkViz L es N p i = some viz)
    (he : inducedEdges es viz.sample = inducedEdges es2 s2)
    (hv : subNodesOf es viz.sample = subNodesOf es2 s2) :
    some viz.threshold = npPercentile70 (subDegreeList es viz.sample) ∧
    npPercentile70 (subDegreeList es viz.sample) = npPercentile70 (subDegreeList es2 s2) ∧
    npPercentile70 (subDegreeList [(1, 2), (2, 3)] [1, 2]) ≠
      npPercentile70 (fullDegreeList [(1, 2), (2, 3)] [1, 2]) := by
  obtain ⟨seed, -, -, hne, -, -, hthr, -, -, -, -, -, -⟩ :=
    networkViz_inversion L es N p i viz h
  refine ⟨?_, ?_, ?_⟩
  · rw [hthr, npPercentile70, if_neg hne]
  · rw [subDegreeList, subDegreeList, he, hv]
  · have h1 : subDegreeList [(1, 2), (2, 3)] [1, 2] = [1, 1] := by decide
    have h2 : fullDegreeList [(1, 2), (2, 3)] [1, 2] = [1, 2] := by decide
    rw [h1, h2, npPercentile70, npPercentile70, if_neg (by simp), if_neg (by simp)]
    intro heq
    have hval := Option.some.inj heq
    rw [np70_const [1, 1] 1 (by simp) (by decide), np70_pair] at hval
    norm_num at hval

theorem threshold_recomputed_in_subgraph_witness :
    networkViz probeLayout star20 2 permId 0 = some vizStar ∧
    inducedEdges star20 vizStar.sample = inducedEdges star20 vizStar.sample ∧
    subNodesOf star20 vizStar.sample = subNodesOf star20 vizStar.sample ∧
    (some vizStar.threshold = npPercentile70 (subDegreeList star20 vizStar.sample) ∧
      npPercentile70 (subDegreeList star20 vizStar.sample) =
        npPercentile70 (subDegreeList star20 vizStar.sample) ∧
      npPercentile70 (subDegreeList [(1, 2), (2, 3)] [1, 2]) ≠
        npPercentile70 (fullDegreeList [(1, 2), (2, 3)] [1, 2])) :=
  ⟨rfl, rfl, rfl,
    threshold_recomputed_in_subgraph probeLayout star20 2 permId 0 vizStar star20
      vizStar.sample rfl rfl rfl⟩

/-! ### Claim C9: determinism under fixed randomness -/

/-- C9: the embedded function is a pure function of the input and the
explicitly modelled pseudo-random state, so two runs with identical input and
identical random state are identical (first conjunct); moreover the layout is
computed from the sampled subgraph with the hard-coded seed 42, so any two
completed runs that agree on the Sample Set — even with different shuffles
and draws — have identical subgraph and identical layout coordinates. -/
theorem determinism_fixed_randomness
    (L : List (Nat × Nat) → List Nat → Nat → List (Nat × ℚ × ℚ))
    (es : List (Nat × Nat)) (N : Nat)
    (p1 : Nat → List Nat → List Nat) (i1 : Nat)
    (p2 : Nat → List Nat → List Nat) (i2 : Nat) (v1 v2 : VizResult)
    (h1 : networkViz L es N p1 i1 = some v1)
    (h2 : networkViz L es N p2 i2 = some v2)
    (hsame : ∀ x, x ∈ v1.sample ↔ x ∈ v2.sample) :
    networkViz L es N p1 i1 = networkViz L es N p1 i1 ∧
    v1.subNodes = v2.subNodes ∧ v1.subEdges = v2.subEdges ∧
    v1.layout = v2.layout := by
  obtain ⟨s1, -, -, -, hN1, hE1, -, -, -, hL1, -, -, -⟩ :=
    networkViz_inversion L es N p1 i1 v1 h1
  obtain ⟨s2, -, -, -, hN2, hE2, -, -, -, hL2, -, -, -⟩ :=
    networkViz_inversion L es N p2 i2 v2 h2
  have hNodes : subNodesOf es v1.sample = subNodesOf es v2.sample := by
    rw [subNodesOf, subNodesOf]
    apply List.filter_congr
    intro x _
    exact decide_eq_decide.mpr (hsame x)
  have hEdges : inducedEdges es v1.sample = inducedEdges es v2.sample := by
    rw [inducedEdges, inducedEdges]
    apply List.filter_congr
    intro e _
    rw [decide_eq_decide.mpr (hsame e.1), decide_eq_decide.mpr (hsame e.2)]
  have hN : v1.subNodes = v2.subNodes := by rw [hN1, hN2, hNodes]
  have hE : v1.subEdges = v2.subEdges := by rw [hE1, hE2, hEdges]
  exact ⟨rfl, hN, hE, by rw [hL1, hL2, hN, hE]⟩

theorem determinism_fixed_randomness_witness :
    networkViz probeLayout star20 2 permId 0 = some vizStar ∧
    (networkViz probeLayout star20 2 permId 0 = networkViz probeLayout star20 2 permId 0 ∧
      vizStar.subNodes = vizStar.subNodes ∧ vizStar.subEdges = vizStar.subEdges ∧
      vizStar.layout = vizStar.layout) :=
  ⟨rfl,
    determinism_fixed_randomness probeLayout star20 2 permId 0 permId 0 vizStar vizStar
      rfl rfl (fun _ => Iff.rfl)⟩
